import Mathlib

/-!
# Verification of a B+ tree implementation

Shallow embedding of the repository `data-structure-rs`, crates
`unsafebplus` (file `src/unsafebplus/src/lib.rs`, the complete variant with
point search and range scan) and `bplus` (file `src/bplus/src/lib.rs`, the
earlier `Rc`-based variant that only implements insertion).

Modeling conventions:
* `Key = usize` and `Data = usize` become `Nat`.
* The raw pointer `next: *const LeafNode` of a leaf becomes an
  `Option Nat` holding the identity of the target leaf; every leaf carries a
  stable numeric identity (`lid`), drawn from a fresh-id counter that the
  insertion routine threads through (this models pointer identity; memory
  reallocation behaviour is out of scope). A null pointer is `none`.
* `Vec::sort_by_key` (a stable sort) is modeled by the stable insertion
  sort `sortPairs` / `NodeList.sortNL`.
* A Rust panic (`Option::unwrap` on `None`) is modeled by the insertion
  routine returning `none`; all other results are wrapped in `some`.
-/

namespace BPlus

/-- Stable insertion of a key/value pair into a list: the pair is placed
before the first element whose key is not smaller, so that an element
inserted from the left of a fold stays in front of later equal keys. -/
def insData (p : Nat × Nat) : List (Nat × Nat) → List (Nat × Nat)
  | [] => [p]
  | q :: t => if q.1 < p.1 then q :: insData p t else p :: q :: t

/-- Model of `Vec::sort_by_key(|r| r.key)` on leaf entries: a stable
insertion sort by the first component. -/
def sortPairs : List (Nat × Nat) → List (Nat × Nat)
  | [] => []
  | p :: t => insData p (sortPairs t)

/-- `LeafNode::insert` data update (both crates): `push` the new entry and
re-sort stably by key. -/
def leafInsertData (data : List (Nat × Nat)) (k d : Nat) : List (Nat × Nat) :=
  sortPairs (data ++ [(k, d)])

/-- Model of `unsafebplus` `InternalNode::find_mut_node` as an index into the
node's ordered pair list, given the list of its keys: if some key is `≤ key`,
take the last entry of the `take_while(key ≤ target)` prefix (`none` models
the `unwrap` panic when that prefix is empty); otherwise fall back to the
first entry. -/
def findMutNodeIdx (keys : List Nat) (k : Nat) : Option Nat :=
  if keys.any (fun x => decide (x ≤ k)) then
    let t := keys.takeWhile (fun x => decide (x ≤ k))
    if t.length = 0 then none else some (t.length - 1)
  else
    match keys with
    | [] => none
    | _ :: _ => some 0

/-- Model of `unsafebplus` `InternalNode::find_node` (used by `search` and
`search_range`): last entry of the `take_while(key ≤ target)` prefix,
falling back to the first entry (`or_else(first)`). -/
def findNodeIdx (keys : List Nat) (k : Nat) : Option Nat :=
  let t := keys.takeWhile (fun x => decide (x ≤ k))
  if t.length = 0 then
    match keys with
    | [] => none
    | _ :: _ => some 0
  else some (t.length - 1)

/-- Model of the routing done inline in `bplus` `InternalNode::insert`
(lines 124-131): last entry of the `take_while(key < target)` prefix with a
strict comparison, falling back to the first entry. -/
def bplusFindIdx (keys : List Nat) (k : Nat) : Option Nat :=
  let t := keys.takeWhile (fun x => decide (x < k))
  if t.length = 0 then
    match keys with
    | [] => none
    | _ :: _ => some 0
  else some (t.length - 1)

mutual
/-- The `unsafebplus` `Node` enum. A leaf stores its capacity, its identity
`lid` (modeling its address), its sorted entries and the identity of the next
leaf in the chain (`none` models a null pointer). An internal node stores its
capacity and its ordered `(separator key, child)` list. -/
inductive Node where
  | internal (cap : Nat) (children : NodeList)
  | leaf (cap : Nat) (lid : Nat) (data : List (Nat × Nat)) (next : Option Nat)

/-- The `Vec<NodePair>` of an internal node, as an inductive list so that all
tree traversals are structural recursions. -/
inductive NodeList where
  | nil
  | cons (key : Nat) (child : Node) (tail : NodeList)
end

namespace NodeList

/-- The separator keys of a node list, in order. -/
def keys : NodeList → List Nat
  | .nil => []
  | .cons k _ t => k :: keys t

/-- Number of pairs. -/
def length : NodeList → Nat
  | .nil => 0
  | .cons _ _ t => length t + 1

/-- `Vec::push`: append a pair at the end. -/
def pushNL (l : NodeList) (k : Nat) (n : Node) : NodeList :=
  match l with
  | .nil => .cons k n .nil
  | .cons k0 c t => .cons k0 c (pushNL t k n)

/-- Stable insertion of one pair into a sorted node list: skip strictly
smaller keys, so the inserted pair comes before later pairs with equal key. -/
def insSortedNL (k : Nat) (n : Node) : NodeList → NodeList
  | .nil => .cons k n .nil
  | .cons k0 c t => if k0 < k then .cons k0 c (insSortedNL k n t) else .cons k n (.cons k0 c t)

/-- Model of `Vec::sort_by_key(|p| p.key)` (stable) on a node list. -/
def sortNL : NodeList → NodeList
  | .nil => .nil
  | .cons k c t => insSortedNL k c (sortNL t)

/-- `Vec::split_off` left half: first `n` pairs. -/
def takeNL : Nat → NodeList → NodeList
  | 0, _ => .nil
  | _, .nil => .nil
  | n + 1, .cons k c t => .cons k c (takeNL n t)

/-- `Vec::split_off` right half: all but the first `n` pairs. -/
def dropNL : Nat → NodeList → NodeList
  | 0, l => l
  | _, .nil => .nil
  | n + 1, .cons _ _ t => dropNL n t

end NodeList

namespace Node

/-- `Node::min_key` (lines 117-122): first stored pair key of an internal
node, first entry key of a leaf. Not recursive in the source. -/
def minKey : Node → Option Nat
  | .internal _ .nil => none
  | .internal _ (.cons k _ _) => some k
  | .leaf _ _ data _ => data.head?.map (fun p => p.1)

/-- The forward reference of a leaf (`none` for internal nodes). -/
def nextRef : Node → Option Nat
  | .leaf _ _ _ next => next
  | .internal _ _ => none

/-- Overwrite the forward reference if the node is a leaf, mirroring the
`if let Node::Leaf(node) = ... { node.next = ptr }` pattern. -/
def setLeafNext : Node → Option Nat → Node
  | .leaf c lid d _, p => .leaf c lid d p
  | n, _ => n

end Node

/-- The leaf-chain rewiring loop of `InternalNode::insert` (lines 152-159):
iterate over the pairs in reverse with a running pointer starting at null;
every leaf child gets the running pointer as its `next` and becomes the new
running pointer. Returns the rewired list together with the final running
pointer. -/
def rewireAux : NodeList → NodeList × Option Nat
  | .nil => (.nil, none)
  | .cons k c t =>
    let r := rewireAux t
    match c with
    | .leaf cc lid d _ => (.cons k (.leaf cc lid d r.2) r.1, some lid)
    | n => (.cons k n r.1, r.2)

/-- The rewired child list of `InternalNode::insert`. -/
def rewireNL (l : NodeList) : NodeList := (rewireAux l).1

/-- `unsafebplus` `LeafNode::split` (lines 256-268): split the sorted data at
the midpoint; the left half stays in the old leaf, the right half goes to a
brand-new leaf (identity `fr`) which inherits the old leaf's forward
reference. The old leaf's own forward reference is left unchanged by this
function. Returns `(old leaf, new leaf)`. -/
def leafSplit (cap lid : Nat) (data : List (Nat × Nat)) (next : Option Nat) (fr : Nat) :
    Node × Node :=
  let left := data.take (data.length / 2)
  let right := data.drop (data.length / 2)
  (.leaf cap lid left next, .leaf cap fr right next)

/-- Tail of `LeafNode::insert` (lines 250-253): after the entry list has been
updated, check `is_full` (`data.len() > cap`) and split at the midpoint if so,
handing the new sibling (identity `fr`) upward. -/
def leafFinish (cap lid : Nat) (data1 : List (Nat × Nat)) (next : Option Nat) (fr : Nat) :
    Node × Nat × Option Node :=
  if data1.length > cap then
    ((leafSplit cap lid data1 next fr).1, fr + 1, some (leafSplit cap lid data1 next fr).2)
  else (.leaf cap lid data1 next, fr, none)

/-- Tail of `InternalNode::insert` (lines 162-165) with `InternalNode::split`
(lines 168-175): after the child list has been updated, check `is_full`
(`nodes.len() > cap + 1`) and split at the midpoint if so. -/
def internalFinish (cap : Nat) (children : NodeList) (fr : Nat) : Node × Nat × Option Node :=
  if children.length > cap + 1 then
    (.internal cap (NodeList.takeNL (children.length / 2) children), fr,
      some (.internal cap (NodeList.dropNL (children.length / 2) children)))
  else (.internal cap children, fr, none)

mutual
/-- `unsafebplus` `Node::insert` / `LeafNode::insert` / `InternalNode::insert`.
Arguments: key, value, fresh-identity counter. Returns `none` on a Rust panic,
otherwise `some (updated node, new counter, optional split-off sibling)`. -/
def Node.insertF : Node → Nat → Nat → Nat → Option (Node × Nat × Option Node)
  | .leaf cap lid data next, k, d, fr =>
    some (leafFinish cap lid (leafInsertData data k d) next fr)
  | .internal cap children, k, d, fr =>
    match children with
    | .nil =>
      -- lines 134-144: an empty internal node silently fabricates a fresh
      -- leaf child holding the inserted entry and reports no split
      some (.internal cap (.cons k (.leaf cap fr [(k, d)] none) .nil), fr + 1, none)
    | .cons _ _ _ =>
      match findMutNodeIdx children.keys k with
      | none => none
      | some i =>
        match NodeList.insertAt children i k d fr with
        | none => none
        | some (children1, fr1, sib) =>
          match sib with
          | none => some (internalFinish cap children1 fr1)
          | some s =>
            match s.minKey with
            | none => some (internalFinish cap children1 fr1)
            | some ks =>
              some (internalFinish cap (rewireNL (NodeList.sortNL (children1.pushNL ks s))) fr1)

/-- Recursive insertion into the `i`-th child of a node list, keeping the
stored separator key of that pair unchanged (the source mutates
`pair.value` in place). `none` on an out-of-range index (a panic) or a panic
below. -/
def NodeList.insertAt : NodeList → Nat → Nat → Nat → Nat → Option (NodeList × Nat × Option Node)
  | .nil, _, _, _, _ => none
  | .cons key c t, 0, k, d, fr =>
    match c.insertF k d fr with
    | none => none
    | some (c1, fr1, sib) => some (.cons key c1 t, fr1, sib)
  | .cons key c t, i + 1, k, d, fr =>
    match NodeList.insertAt t i k d fr with
    | none => none
    | some (t1, fr1, sib) => some (.cons key c t1, fr1, sib)
end

mutual
/-- `unsafebplus` `Node::search` / `InternalNode::search` / `LeafNode::search`:
route with `find_node`, then scan the leaf for an exact key match. -/
def Node.searchF : Node → Nat → Option Nat
  | .leaf _ _ data _, k => (data.find? (fun p => decide (p.1 = k))).map (fun p => p.2)
  | .internal _ children, k =>
    match findNodeIdx children.keys k with
    | none => none
    | some i => NodeList.searchAt children i k

/-- Point search in the `i`-th child of a node list. -/
def NodeList.searchAt : NodeList → Nat → Nat → Option Nat
  | .nil, _, _ => none
  | .cons _ c _, 0, k => c.searchF k
  | .cons _ _ t, i + 1, k => NodeList.searchAt t i k
end

mutual
/-- All leaves of a tree in structural (left-to-right) order, as
`(identity, data, next)` triples. -/
def Node.allLeaves : Node → List (Nat × List (Nat × Nat) × Option Nat)
  | .leaf _ lid data next => [(lid, data, next)]
  | .internal _ children => NodeList.allLeavesNL children

/-- All leaves below the pairs of a node list. -/
def NodeList.allLeavesNL : NodeList → List (Nat × List (Nat × Nat) × Option Nat)
  | .nil => []
  | .cons _ c t => c.allLeaves ++ NodeList.allLeavesNL t
end

/-- Number of leaf nodes existing in a tree. -/
def Node.leafCount (n : Node) : Nat := n.allLeaves.length

/-- Dereference a leaf identity (i.e. follow a stored leaf pointer): find the
leaf with that identity anywhere in the tree. -/
def findLeafById (root : Node) (lid : Nat) : Option (Nat × List (Nat × Nat) × Option Nat) :=
  root.allLeaves.find? (fun x => decide (x.1 = lid))

/-- The chain-following loop of `LeafNode::search_range` (lines 282-299):
follow `next`, collect the values of the entries with key `≤ max` of each
visited leaf, and stop after the first leaf in which some entry exceeded the
bound (strictly fewer qualifying entries than entries). `fuel` bounds the
walk (the source loops unboundedly; a dangling or cyclic pointer chain is cut
off). -/
def followChainVals (root : Node) : Nat → Option Nat → Nat → List Nat
  | 0, _, _ => []
  | _ + 1, none, _ => []
  | fuel + 1, some lid, mx =>
    match findLeafById root lid with
    | none => []
    | some (_, data, nx) =>
      let d := (data.filter (fun p => decide (p.1 ≤ mx))).map (fun p => p.2)
      if d.length < data.length then d else d ++ followChainVals root fuel nx mx

mutual
/-- `unsafebplus` `Node::search_range` (lines 107-115) together with
`InternalNode::search_range` and `LeafNode::search_range`: an inverted range
yields `[]` at every level; otherwise route with `find_node` on `min_key`
down to a leaf, collect its entries inside `[min, max]`, then follow the leaf
chain. `root` is the tree root, needed to dereference leaf pointers. -/
def Node.searchRangeF (root : Node) : Node → Nat → Nat → List Nat
  | .leaf _ _ data next, mn, mx =>
    if mn > mx then []
    else
      ((data.filter (fun p => decide (mn ≤ p.1) && decide (p.1 ≤ mx))).map (fun p => p.2)) ++
        followChainVals root root.leafCount next mx
  | .internal _ children, mn, mx =>
    if mn > mx then []
    else
      match findNodeIdx children.keys mn with
      | none => []
      | some i => NodeList.searchRangeAt root children i mn mx

/-- Range scan through the `i`-th child of a node list. -/
def NodeList.searchRangeAt (root : Node) : NodeList → Nat → Nat → Nat → List Nat
  | .nil, _, _, _ => []
  | .cons _ c _, 0, mn, mx => Node.searchRangeF root c mn mx
  | .cons _ _ t, i + 1, mn, mx => NodeList.searchRangeAt root t i mn mx
end

/-- The structurally leftmost leaf of a tree (following first children). -/
def Node.leftmostLeaf : Node → Option (Nat × List (Nat × Nat) × Option Nat)
  | .leaf _ lid data next => some (lid, data, next)
  | .internal _ .nil => none
  | .internal _ (.cons _ c _) => c.leftmostLeaf

/-- Identities of the leaves reachable by following forward references,
starting from a given reference; `fuel` cuts off a cyclic or dangling chain. -/
def chainIdsFrom (root : Node) : Nat → Option Nat → List Nat
  | 0, _ => []
  | _ + 1, none => []
  | fuel + 1, some lid =>
    match findLeafById root lid with
    | none => []
    | some (_, _, nx) => lid :: chainIdsFrom root fuel nx

/-- Identities of all leaves reachable from the leftmost leaf along the
chain of forward references. -/
def Node.chainIds (n : Node) : List Nat :=
  match n.leftmostLeaf with
  | none => []
  | some (lid, _, nx) => lid :: chainIdsFrom n n.leafCount nx

/-- Keys of the entries of the leaves reachable from the leftmost leaf, in
chain order. -/
def chainKeysFrom (root : Node) : Nat → Option Nat → List Nat
  | 0, _ => []
  | _ + 1, none => []
  | fuel + 1, some lid =>
    match findLeafById root lid with
    | none => []
    | some (_, data, nx) => data.map (fun p => p.1) ++ chainKeysFrom root fuel nx

/-- In-order key traversal of the leaf chain from the leftmost leaf. -/
def Node.chainKeys (n : Node) : List Nat :=
  match n.leftmostLeaf with
  | none => []
  | some (_, data, nx) => data.map (fun p => p.1) ++ chainKeysFrom n n.leafCount nx

/-- The minimum key of a node in the sense of the specification: the key of
the first entry of a leaf, recursively the minimum key of the first child of
an internal node ("the child's first leaf key"). -/
def Node.claimMinKey : Node → Option Nat
  | .leaf _ _ data _ => data.head?.map (fun p => p.1)
  | .internal _ .nil => none
  | .internal _ (.cons _ c _) => c.claimMinKey

mutual
/-- The separator-key invariant of the specification: every stored pair key
of every internal node equals the recursive minimum key of its child. -/
def Node.sepOk : Node → Bool
  | .leaf _ _ _ _ => true
  | .internal _ children => NodeList.sepOkAll children

/-- The separator-key invariant for every pair of a node list. -/
def NodeList.sepOkAll : NodeList → Bool
  | .nil => true
  | .cons k c t => (decide (c.claimMinKey = some k)) && c.sepOk && NodeList.sepOkAll t
end

mutual
/-- Height of a node: leaves have height 0, an internal node is one more
than the maximum height of its children. -/
def Node.height : Node → Nat
  | .leaf _ _ _ _ => 0
  | .internal _ children => 1 + NodeList.maxHeight children

/-- Maximum height over the children of a node list (0 for the empty list). -/
def NodeList.maxHeight : NodeList → Nat
  | .nil => 0
  | .cons _ c t => max c.height (NodeList.maxHeight t)
end

/-- All children of a node list have the given height. -/
def NodeList.allHeightNL : NodeList → Nat → Bool
  | .nil, _ => true
  | .cons _ c t, h => (decide (c.height = h)) && NodeList.allHeightNL t h

mutual
/-- Structural well-formedness used for the root-growth theorem: every leaf
is nonempty, every internal node has at least one child, and the children of
an internal node are all well-formed of equal height (the tree is balanced). -/
def Node.wf : Node → Bool
  | .leaf _ _ data _ => decide (data ≠ [])
  | .internal _ children =>
    match children with
    | .nil => false
    | .cons _ c t => c.wf && NodeList.wfAllNL t && NodeList.allHeightNL t c.height

/-- Well-formedness of every child of a node list. -/
def NodeList.wfAllNL : NodeList → Bool
  | .nil => true
  | .cons _ c t => c.wf && NodeList.wfAllNL t
end

/-- `is_full` of an internal node (lines 224-228): more than `cap + 1`
pairs. -/
def Node.isFullInternal : Node → Bool
  | .leaf _ _ _ _ => false
  | .internal cap children => decide (children.length > cap + 1)

/-- The leaf-chain fix of `BPlusTree::insert` after root growth
(lines 62-68): if the second pair's child is a leaf take its address,
and if the first pair's child is a leaf set its forward reference to that
address. -/
def fixRootChain : NodeList → NodeList
  | .cons k0 c0 (.cons k1 c1 rest) =>
    let ptr : Option Nat :=
      match c1 with
      | .leaf _ lid _ _ => some lid
      | _ => none
    .cons k0 (c0.setLeafNext ptr) (.cons k1 c1 rest)
  | l => l

/-- The `unsafebplus` `BPlusTree` handle: capacity, optional root node, and
the fresh-identity counter modeling allocation of leaf addresses. -/
structure BPlusTree where
  cap : Nat
  node : Option Node
  fresh : Nat

/-- `BPlusTree::new`. -/
def BPlusTree.new (cap : Nat) : BPlusTree := ⟨cap, none, 0⟩

/-- `BPlusTree::insert` (lines 33-72): first insertion creates a singleton
leaf root; afterwards insert into the root node, and if it reports a split
build a new internal root from the old child and the sibling, keyed by their
`min_key`s (the `unwrap`s on `min_key` are the `none` cases), then fix the
leaf chain between the two children. `none` models a panic. -/
def BPlusTree.insert (t : BPlusTree) (k d : Nat) : Option BPlusTree :=
  match t.node with
  | none => some ⟨t.cap, some (.leaf t.cap t.fresh [(k, d)] none), t.fresh + 1⟩
  | some n =>
    match n.insertF k d t.fresh with
    | none => none
    | some (n1, fr1, none) => some ⟨t.cap, some n1, fr1⟩
    | some (n1, fr1, some s) =>
      match n1.minKey, s.minKey with
      | some k0, some k1 =>
        some ⟨t.cap, some (.internal t.cap (fixRootChain (.cons k0 n1 (.cons k1 s .nil)))), fr1⟩
      | _, _ => none

/-- `BPlusTree::search` (lines 74-76). -/
def BPlusTree.search (t : BPlusTree) (k : Nat) : Option Nat :=
  t.node.bind (fun n => n.searchF k)

/-- `BPlusTree::search_range` (lines 78-83). -/
def BPlusTree.searchRange (t : BPlusTree) (mn mx : Nat) : List Nat :=
  match t.node with
  | none => []
  | some n => n.searchRangeF n mn mx

/-- The separator-key invariant over the whole tree. -/
def BPlusTree.sepInvariant (t : BPlusTree) : Bool :=
  match t.node with
  | none => true
  | some n => n.sepOk

/-- Identities of the chain-reachable leaves of the tree. -/
def BPlusTree.chainLeafIds (t : BPlusTree) : List Nat :=
  match t.node with
  | none => []
  | some n => n.chainIds

/-- Keys along the leaf chain of the tree. -/
def BPlusTree.chainKeys (t : BPlusTree) : List Nat :=
  match t.node with
  | none => []
  | some n => n.chainKeys

/-- Number of leaves of the tree. -/
def BPlusTree.leafCount (t : BPlusTree) : Nat :=
  match t.node with
  | none => 0
  | some n => n.leafCount

/-- Insertion lifted to the panic-tracking `Option` state. -/
def insStep (t : Option BPlusTree) (k d : Nat) : Option BPlusTree :=
  t.bind (fun x => x.insert k d)

/-- Capacity-1 tree after inserting keys 5, 3, 1 (values 50, 30, 10): the
smallest witness of the stale-separator behaviour of the first-entry
fallback. -/
def tree531 : Option BPlusTree :=
  insStep (insStep (insStep (some (BPlusTree.new 1)) 5 50) 3 30) 1 10

/-- Capacity-1 tree after inserting keys 5, 3, 1, 0 with pairwise distinct
keys (values 50, 30, 10, 100). -/
def tree5310 : Option BPlusTree := insStep tree531 0 100

end BPlus

namespace BPlus

theorem mem_of_mem_takeWhile {p : Nat × Nat → Bool} {x : Nat × Nat} :
    ∀ {l : List (Nat × Nat)}, x ∈ l.takeWhile p → x ∈ l := by
  intro l
  induction l with
  | nil => simp
  | cons a t ih =>
    by_cases ha : p a = true
    · simp only [List.takeWhile_cons, ha, if_true, List.mem_cons]
      rintro (h | h)
      · exact Or.inl h
      · exact Or.inr (ih h)
    · simp [List.takeWhile_cons, ha]

theorem insData_eq_cons (p : Nat × Nat) (l : List (Nat × Nat))
    (h : ∀ q ∈ l.head?, ¬ q.1 < p.1) : insData p l = p :: l := by
  cases l with
  | nil => rfl
  | cons q t =>
    have hq : ¬ q.1 < p.1 := h q (by simp)
    simp [insData, hq]

theorem insData_perm (p : Nat × Nat) (l : List (Nat × Nat)) :
    (insData p l).Perm (p :: l) := by
  induction l with
  | nil => simp [insData]
  | cons q t ih =>
    by_cases hq : q.1 < p.1
    · simp only [insData, hq, if_true]
      exact (ih.cons q).trans (List.Perm.swap p q t)
    · simp [insData, hq]

theorem sortPairs_perm (l : List (Nat × Nat)) : (sortPairs l).Perm l := by
  induction l with
  | nil => simp [sortPairs]
  | cons p t ih =>
    exact (insData_perm p (sortPairs t)).trans (ih.cons p)

theorem sortPairs_append_single (l : List (Nat × Nat)) (x : Nat × Nat)
    (hs : l.Pairwise (fun a b => a.1 ≤ b.1)) :
    sortPairs (l ++ [x]) =
      l.takeWhile (fun p => decide (p.1 ≤ x.1)) ++ x ::
        l.dropWhile (fun p => decide (p.1 ≤ x.1)) := by
  induction l with
  | nil => simp [sortPairs, insData]
  | cons a t ih =>
    obtain ⟨ha, ht⟩ := List.pairwise_cons.mp hs
    have ih1 := ih ht
    by_cases hax : a.1 ≤ x.1
    · have hstep : sortPairs ((a :: t) ++ [x]) =
          insData a (sortPairs (t ++ [x])) := rfl
      rw [hstep, ih1, insData_eq_cons]
      · simp [List.takeWhile_cons, List.dropWhile_cons, hax]
      · intro q hq
        rcases hh : t.takeWhile (fun p => decide (p.1 ≤ x.1)) with _ | ⟨b, tb⟩
        · rw [hh] at hq
          simp at hq
          subst hq
          omega
        · rw [hh] at hq
          simp at hq
          subst hq
          have hbmem : b ∈ t := mem_of_mem_takeWhile (l := t) (by rw [hh]; simp)
          have := ha b hbmem
          omega
    · have hstep : sortPairs ((a :: t) ++ [x]) =
          insData a (sortPairs (t ++ [x])) := rfl
      have htw : t.takeWhile (fun p => decide (p.1 ≤ x.1)) = [] := by
        cases t with
        | nil => rfl
        | cons b tb =>
          have hb := ha b (by simp)
          have : ¬ b.1 ≤ x.1 := by omega
          simp [List.takeWhile_cons, this]
      have hdw : t.dropWhile (fun p => decide (p.1 ≤ x.1)) = t := by
        cases t with
        | nil => rfl
        | cons b tb =>
          have hb := ha b (by simp)
          have : ¬ b.1 ≤ x.1 := by omega
          simp [List.dropWhile_cons, this]
      rw [hstep, ih1, htw, hdw]
      have hxa : x.1 < a.1 := by omega
      have h2 : insData a (x :: t) = x :: insData a t := by
        simp [insData, hxa]
      rw [List.nil_append, h2, insData_eq_cons a t]
      · simp [List.takeWhile_cons, List.dropWhile_cons, hax]
      · intro q hq
        cases t with
        | nil => simp at hq
        | cons b tb =>
          simp at hq
          subst hq
          have := ha b (by simp)
          omega

theorem mem_takeWhile_of_sorted {l : List (Nat × Nat)} {k v1 : Nat}
    (hs : l.Pairwise (fun a b => a.1 ≤ b.1)) (hm : (k, v1) ∈ l) :
    (k, v1) ∈ l.takeWhile (fun p => decide (p.1 ≤ k)) := by
  induction l with
  | nil => simp at hm
  | cons a t ih =>
    obtain ⟨ha, ht⟩ := List.pairwise_cons.mp hs
    rcases List.mem_cons.mp hm with heq | hm2
    · rw [← heq]
      simp [List.takeWhile_cons]
    · have hak : a.1 ≤ k := ha (k, v1) hm2
      simp only [List.takeWhile_cons, decide_eq_true hak, if_true, List.mem_cons]
      exact Or.inr (ih ht hm2)

theorem findIdx_agree_aux (keys : List Nat) (k : Nat) (hs : keys.Pairwise (· ≤ ·)) :
    findMutNodeIdx keys k = findNodeIdx keys k := by
  unfold findMutNodeIdx findNodeIdx
  by_cases hA : keys.any (fun x => decide (x ≤ k)) = true
  · rw [if_pos hA]
    cases keys with
    | nil => simp at hA
    | cons a t =>
      obtain ⟨x, hx, hxk⟩ := List.any_eq_true.mp hA
      have hxk : x ≤ k := of_decide_eq_true hxk
      have hak : a ≤ k := by
        rcases List.mem_cons.mp hx with rfl | hx2
        · exact hxk
        · exact le_trans ((List.pairwise_cons.mp hs).1 x hx2) hxk
      simp [List.takeWhile_cons, hak]
  · rw [if_neg hA]
    cases keys with
    | nil => simp
    | cons a t =>
      have hak : ¬ a ≤ k := by
        intro h
        exact hA (List.any_eq_true.mpr ⟨a, List.mem_cons_self a t, decide_eq_true h⟩)
      simp [List.takeWhile_cons, hak]

end BPlus

namespace BPlus

/-- Induction principle for `NodeList` that does not motivate `Node`,
so the `induction` tactic can use it on list-shaped goals. -/
@[induction_eliminator]
theorem NodeList.inductionOn {motive : NodeList → Prop} (nil : motive .nil)
    (cons : ∀ (key : Nat) (child : Node) (tail : NodeList),
      motive tail → motive (.cons key child tail)) :
    ∀ l, motive l :=
  fun l =>
    NodeList.rec (motive_1 := fun _ => True) (motive_2 := motive)
      (fun _ _ _ => trivial) (fun _ _ _ _ => trivial)
      nil (fun k c t _ ht => cons k c t ht) l

theorem insData_length (p : Nat × Nat) (l : List (Nat × Nat)) :
    (insData p l).length = l.length + 1 := by
  induction l with
  | nil => rfl
  | cons q t ih =>
    by_cases hq : q.1 < p.1
    · simp [insData, hq, ih]
    · simp [insData, hq]

theorem sortPairs_length (l : List (Nat × Nat)) : (sortPairs l).length = l.length := by
  induction l with
  | nil => rfl
  | cons p t ih => simp [sortPairs, insData_length, ih]

namespace NodeList

theorem length_pushNL (l : NodeList) (k : Nat) (n : Node) :
    (l.pushNL k n).length = l.length + 1 := by
  induction l with
  | nil => rfl
  | cons k0 c t ih => simp [pushNL, length, ih]

theorem length_insSortedNL (k : Nat) (n : Node) (l : NodeList) :
    (insSortedNL k n l).length = l.length + 1 := by
  induction l with
  | nil => rfl
  | cons k0 c t ih =>
    by_cases hk : k0 < k
    · simp [insSortedNL, hk, length, ih]
    · simp [insSortedNL, hk, length]

theorem length_sortNL (l : NodeList) : (sortNL l).length = l.length := by
  induction l with
  | nil => rfl
  | cons k c t ih => simp [sortNL, length_insSortedNL, length, ih]

theorem length_takeNL (n : Nat) (l : NodeList) :
    (takeNL n l).length = min n l.length := by
  induction l generalizing n with
  | nil => cases n <;> simp [takeNL, length]
  | cons k c t ih =>
    cases n with
    | zero => simp [takeNL, length]
    | succ m => simp [takeNL, length, ih]; omega

theorem length_dropNL (n : Nat) (l : NodeList) :
    (dropNL n l).length = l.length - n := by
  induction l generalizing n with
  | nil => cases n <;> simp [dropNL, length]
  | cons k c t ih =>
    cases n with
    | zero => simp [dropNL]
    | succ m => simp [dropNL, length, ih]

theorem ne_nil_of_length_pos {l : NodeList} (h : 0 < l.length) : l ≠ .nil := by
  cases l with
  | nil => simp [length] at h
  | cons k c t => intro hc; exact NodeList.noConfusion hc

theorem maxHeight_of_allHeight {l : NodeList} {h : Nat} (hne : l ≠ .nil)
    (hh : l.allHeightNL h = true) : l.maxHeight = h := by
  induction l with
  | nil => exact absurd rfl hne
  | cons k c t ih =>
    simp only [allHeightNL, Bool.and_eq_true, decide_eq_true_eq] at hh
    cases t with
    | nil => simp [maxHeight, hh.1]
    | cons k1 c1 t1 =>
      have hrec := ih (by intro hc; exact NodeList.noConfusion hc) hh.2
      have hstep : (NodeList.cons k c (NodeList.cons k1 c1 t1)).maxHeight =
          max c.height (NodeList.cons k1 c1 t1).maxHeight := rfl
      rw [hstep, hh.1, hrec, Nat.max_self]

end NodeList

theorem wf_internal_intro (cap : Nat) {l : NodeList} {h : Nat} (hne : l ≠ .nil)
    (hwf : l.wfAllNL = true) (hh : l.allHeightNL h = true) :
    (Node.internal cap l).wf = true := by
  cases l with
  | nil => exact absurd rfl hne
  | cons k c t =>
    simp only [NodeList.wfAllNL, Bool.and_eq_true] at hwf
    simp only [NodeList.allHeightNL, Bool.and_eq_true, decide_eq_true_eq] at hh
    simp [Node.wf, hwf.1, hwf.2, hh.1 ▸ hh.2]

theorem height_internal_eq (cap : Nat) {l : NodeList} {h : Nat} (hne : l ≠ .nil)
    (hh : l.allHeightNL h = true) : (Node.internal cap l).height = 1 + h := by
  simp [Node.height, NodeList.maxHeight_of_allHeight hne hh]

theorem wf_internal_elim {cap : Nat} {l : NodeList}
    (hwf : (Node.internal cap l).wf = true) :
    ∃ h, l ≠ .nil ∧ l.wfAllNL = true ∧ l.allHeightNL h = true := by
  cases l with
  | nil => simp [Node.wf] at hwf
  | cons k c t =>
    simp only [Node.wf, Bool.and_eq_true] at hwf
    refine ⟨c.height, by intro hc; exact NodeList.noConfusion hc, ?_, ?_⟩
    · simp [NodeList.wfAllNL, hwf.1.1, hwf.1.2]
    · simp [NodeList.allHeightNL, hwf.2]

theorem insSortedNL_pres {k : Nat} {s : Node} {h : Nat} :
    ∀ {l : NodeList}, l.wfAllNL = true → l.allHeightNL h = true →
      s.wf = true → s.height = h →
      (NodeList.insSortedNL k s l).wfAllNL = true ∧
        (NodeList.insSortedNL k s l).allHeightNL h = true := by
  intro l
  induction l with
  | nil =>
    intro _ _ hs hsh
    simp [NodeList.insSortedNL, NodeList.wfAllNL, NodeList.allHeightNL, hs, hsh]
  | cons k0 c t ih =>
    intro hl hh hs hsh
    simp only [NodeList.wfAllNL, Bool.and_eq_true] at hl
    simp only [NodeList.allHeightNL, Bool.and_eq_true, decide_eq_true_eq] at hh
    by_cases hk : k0 < k
    · have hrec := ih hl.2 hh.2 hs hsh
      simp [NodeList.insSortedNL, hk, NodeList.wfAllNL, NodeList.allHeightNL,
        hl.1, hh.1, hrec.1, hrec.2]
    · simp [NodeList.insSortedNL, hk, NodeList.wfAllNL, NodeList.allHeightNL,
        hl.1, hh.1, hl.2, hh.2, hs, hsh]

theorem sortNL_pres {h : Nat} :
    ∀ {l : NodeList}, l.wfAllNL = true → l.allHeightNL h = true →
      (NodeList.sortNL l).wfAllNL = true ∧ (NodeList.sortNL l).allHeightNL h = true := by
  intro l
  induction l with
  | nil => intro _ _; simp [NodeList.sortNL, NodeList.wfAllNL, NodeList.allHeightNL]
  | cons k c t ih =>
    intro hl hh
    simp only [NodeList.wfAllNL, Bool.and_eq_true] at hl
    simp only [NodeList.allHeightNL, Bool.and_eq_true, decide_eq_true_eq] at hh
    have hrec := ih hl.2 hh.2
    exact insSortedNL_pres hrec.1 hrec.2 hl.1 hh.1

theorem pushNL_pres {k : Nat} {s : Node} {h : Nat} :
    ∀ {l : NodeList}, l.wfAllNL = true → l.allHeightNL h = true →
      s.wf = true → s.height = h →
      (l.pushNL k s).wfAllNL = true ∧ (l.pushNL k s).allHeightNL h = true := by
  intro l
  induction l with
  | nil =>
    intro _ _ hs hsh
    simp [NodeList.pushNL, NodeList.wfAllNL, NodeList.allHeightNL, hs, hsh]
  | cons k0 c t ih =>
    intro hl hh hs hsh
    simp only [NodeList.wfAllNL, Bool.and_eq_true] at hl
    simp only [NodeList.allHeightNL, Bool.and_eq_true, decide_eq_true_eq] at hh
    have hrec := ih hl.2 hh.2 hs hsh
    simp [NodeList.pushNL, NodeList.wfAllNL, NodeList.allHeightNL,
      hl.1, hh.1, hrec.1, hrec.2]

theorem rewireAux_pres {h : Nat} :
    ∀ {l : NodeList}, l.wfAllNL = true → l.allHeightNL h = true →
      (rewireAux l).1.wfAllNL = true ∧ (rewireAux l).1.allHeightNL h = true ∧
        (rewireAux l).1.length = l.length := by
  intro l
  induction l with
  | nil => intro _ _; simp [rewireAux, NodeList.wfAllNL, NodeList.allHeightNL, NodeList.length]
  | cons k c t ih =>
    intro hl hh
    simp only [NodeList.wfAllNL, Bool.and_eq_true] at hl
    simp only [NodeList.allHeightNL, Bool.and_eq_true, decide_eq_true_eq] at hh
    have hrec := ih hl.2 hh.2
    cases c with
    | leaf cc lid d nx =>
      have hw : (Node.leaf cc lid d (rewireAux t).2).wf = true := by
        simpa [Node.wf] using hl.1
      have hht : (Node.leaf cc lid d (rewireAux t).2).height = h := by
        simpa [Node.height] using hh.1
      simp [rewireAux, NodeList.wfAllNL, NodeList.allHeightNL, NodeList.length,
        hw, hht, hrec.1, hrec.2.1, hrec.2.2]
    | internal icap ich =>
      simp [rewireAux, NodeList.wfAllNL, NodeList.allHeightNL, NodeList.length,
        hl.1, hh.1, hrec.1, hrec.2.1, hrec.2.2]

theorem takeNL_pres {h : Nat} :
    ∀ (n : Nat) {l : NodeList}, l.wfAllNL = true → l.allHeightNL h = true →
      (NodeList.takeNL n l).wfAllNL = true ∧ (NodeList.takeNL n l).allHeightNL h = true := by
  intro n l
  induction l generalizing n with
  | nil =>
    intro _ _
    cases n <;> simp [NodeList.takeNL, NodeList.wfAllNL, NodeList.allHeightNL]
  | cons k c t ih =>
    intro hl hh
    simp only [NodeList.wfAllNL, Bool.and_eq_true] at hl
    simp only [NodeList.allHeightNL, Bool.and_eq_true, decide_eq_true_eq] at hh
    cases n with
    | zero => simp [NodeList.takeNL, NodeList.wfAllNL, NodeList.allHeightNL]
    | succ m =>
      have hrec := ih m hl.2 hh.2
      simp [NodeList.takeNL, NodeList.wfAllNL, NodeList.allHeightNL,
        hl.1, hh.1, hrec.1, hrec.2]

theorem dropNL_pres {h : Nat} :
    ∀ (n : Nat) {l : NodeList}, l.wfAllNL = true → l.allHeightNL h = true →
      (NodeList.dropNL n l).wfAllNL = true ∧ (NodeList.dropNL n l).allHeightNL h = true := by
  intro n l
  induction l generalizing n with
  | nil =>
    intro _ _
    cases n <;> simp [NodeList.dropNL, NodeList.wfAllNL, NodeList.allHeightNL]
  | cons k c t ih =>
    intro hl hh
    simp only [NodeList.wfAllNL, Bool.and_eq_true] at hl
    simp only [NodeList.allHeightNL, Bool.and_eq_true, decide_eq_true_eq] at hh
    cases n with
    | zero =>
      simp [NodeList.dropNL, NodeList.wfAllNL, NodeList.allHeightNL,
        hl.1, hh.1, hl.2, hh.2]
    | succ m => simpa [NodeList.dropNL] using ih m hl.2 hh.2

theorem insertAt_length :
    ∀ (l : NodeList) (i k d fr : Nat) (r : NodeList × Nat × Option Node),
      NodeList.insertAt l i k d fr = some r → r.1.length = l.length := by
  intro l
  induction l with
  | nil => intro i k d fr r hr; simp [NodeList.insertAt] at hr
  | cons key c t ih =>
    intro i k d fr r hr
    cases i with
    | zero =>
      simp only [NodeList.insertAt] at hr
      rcases hc : c.insertF k d fr with _ | ⟨c1, fr1, sib⟩
      · rw [hc] at hr; simp at hr
      · rw [hc] at hr
        simp only [Option.some.injEq] at hr
        rw [← hr]
        simp [NodeList.length]
    | succ m =>
      simp only [NodeList.insertAt] at hr
      rcases ht : NodeList.insertAt t m k d fr with _ | ⟨t1, fr1, sib⟩
      · rw [ht] at hr; simp at hr
      · rw [ht] at hr
        simp only [Option.some.injEq] at hr
        rw [← hr]
        simp [NodeList.length, ih m k d fr (t1, fr1, sib) ht]

end BPlus

namespace BPlus

theorem leafFinish_pres (cap lid : Nat) (next : Option Nat) (fr : Nat)
    (data1 : List (Nat × Nat)) (h2 : 2 ≤ data1.length) :
    (leafFinish cap lid data1 next fr).1.wf = true ∧
    (leafFinish cap lid data1 next fr).1.height = 0 ∧
    ∀ s, (leafFinish cap lid data1 next fr).2.2 = some s →
      s.wf = true ∧ s.height = 0 := by
  unfold leafFinish
  by_cases hfull : data1.length > cap
  · rw [if_pos hfull]
    have htake : (data1.take (data1.length / 2)).length = data1.length / 2 := by
      rw [List.length_take]; omega
    have hdrop : (data1.drop (data1.length / 2)).length = data1.length - data1.length / 2 :=
      List.length_drop _ _
    refine ⟨?_, rfl, ?_⟩
    · simp only [leafSplit, Node.wf, decide_eq_true_eq]
      intro hnil
      have hlen0 := congrArg List.length hnil
      rw [htake, List.length_nil] at hlen0
      omega
    · intro s hs
      simp only [Option.some.injEq] at hs
      rw [← hs]
      refine ⟨?_, rfl⟩
      simp only [leafSplit, Node.wf, decide_eq_true_eq]
      intro hnil
      have hlen0 := congrArg List.length hnil
      rw [hdrop, List.length_nil] at hlen0
      omega
  · rw [if_neg hfull]
    refine ⟨?_, rfl, ?_⟩
    · simp only [Node.wf, decide_eq_true_eq]
      intro hnil
      have hlen0 := congrArg List.length hnil
      rw [List.length_nil] at hlen0
      omega
    · intro s hs
      simp at hs

theorem internalFinish_pres {h : Nat} (cap fr : Nat) {l : NodeList}
    (hne : l ≠ .nil) (hwf : l.wfAllNL = true) (hh : l.allHeightNL h = true) :
    (internalFinish cap l fr).1.wf = true ∧
    (internalFinish cap l fr).1.height = 1 + h ∧
    ∀ s, (internalFinish cap l fr).2.2 = some s → s.wf = true ∧ s.height = 1 + h := by
  unfold internalFinish
  by_cases hfull : l.length > cap + 1
  · rw [if_pos hfull]
    have hlpos : 0 < l.length := by omega
    have htake_pos : 0 < (NodeList.takeNL (l.length / 2) l).length := by
      rw [NodeList.length_takeNL]; omega
    have hdrop_pos : 0 < (NodeList.dropNL (l.length / 2) l).length := by
      rw [NodeList.length_dropNL]; omega
    have htp := takeNL_pres (h := h) (l.length / 2) hwf hh
    have hdp := dropNL_pres (h := h) (l.length / 2) hwf hh
    refine ⟨wf_internal_intro cap (NodeList.ne_nil_of_length_pos htake_pos) htp.1 htp.2,
      height_internal_eq cap (NodeList.ne_nil_of_length_pos htake_pos) htp.2, ?_⟩
    intro s hs
    simp only [Option.some.injEq] at hs
    rw [← hs]
    exact ⟨wf_internal_intro cap (NodeList.ne_nil_of_length_pos hdrop_pos) hdp.1 hdp.2,
      height_internal_eq cap (NodeList.ne_nil_of_length_pos hdrop_pos) hdp.2⟩
  · rw [if_neg hfull]
    refine ⟨wf_internal_intro cap hne hwf hh, height_internal_eq cap hne hh, ?_⟩
    intro s hs
    simp at hs

mutual

theorem insertF_pres : ∀ (n : Node) (k d fr : Nat) (res : Node × Nat × Option Node),
    n.wf = true → n.insertF k d fr = some res →
    res.1.wf = true ∧ res.1.height = n.height ∧
      ∀ s, res.2.2 = some s → s.wf = true ∧ s.height = n.height
  | .leaf cap lid data next, k, d, fr, res, hwf, heq => by
    have hdata : data ≠ [] := by simpa [Node.wf] using hwf
    have hd1 : 0 < data.length := List.length_pos.mpr hdata
    have h2 : 2 ≤ (leafInsertData data k d).length := by
      simp only [leafInsertData, sortPairs_length, List.length_append, List.length_singleton]
      omega
    simp only [Node.insertF, Option.some.injEq] at heq
    rw [← heq]
    have hfin := leafFinish_pres cap lid next fr (leafInsertData data k d) h2
    exact ⟨hfin.1, hfin.2.1, hfin.2.2⟩
  | .internal cap .nil, k, d, fr, res, hwf, heq => by
    simp [Node.wf] at hwf
  | .internal cap (.cons k0 c0 t0), k, d, fr, res, hwf, heq => by
    obtain ⟨h, hne, hwfl, hhl⟩ := wf_internal_elim hwf
    have hn_height : (Node.internal cap (NodeList.cons k0 c0 t0)).height = 1 + h :=
      height_internal_eq cap hne hhl
    simp only [Node.insertF] at heq
    split at heq
    · exact absurd heq (by simp)
    · rename_i i hidx
      split at heq
      · exact absurd heq (by simp)
      · rename_i children1 fr1 sib hins
        have hrec := insertAt_pres (.cons k0 c0 t0) i k d fr h (children1, fr1, sib)
          hwfl hhl hins
        have hlen1 : children1.length = t0.length + 1 := by
          have := insertAt_length (.cons k0 c0 t0) i k d fr (children1, fr1, sib) hins
          simpa [NodeList.length] using this
        have hc1ne : children1 ≠ .nil := NodeList.ne_nil_of_length_pos (by omega)
        split at heq
        · -- sib = none
          simp only [Option.some.injEq] at heq
          rw [← heq]
          have hfin := internalFinish_pres cap fr1 hc1ne hrec.1 hrec.2.1
          refine ⟨hfin.1, ?_, ?_⟩
          · rw [hfin.2.1, hn_height]
          · intro s hs
            have hss := hfin.2.2 s hs
            exact ⟨hss.1, by rw [hss.2, hn_height]⟩
        · -- sib = some s
          rename_i s
          have hsw := hrec.2.2 s rfl
          split at heq
          · -- s.minKey = none: the sibling is silently dropped
            simp only [Option.some.injEq] at heq
            rw [← heq]
            have hfin := internalFinish_pres cap fr1 hc1ne hrec.1 hrec.2.1
            refine ⟨hfin.1, ?_, ?_⟩
            · rw [hfin.2.1, hn_height]
            · intro s2 hs2
              have hss := hfin.2.2 s2 hs2
              exact ⟨hss.1, by rw [hss.2, hn_height]⟩
          · rename_i ks hks
            simp only [Option.some.injEq] at heq
            rw [← heq]
            have hpush := pushNL_pres (k := ks) hrec.1 hrec.2.1 hsw.1 hsw.2
            have hsort := sortNL_pres hpush.1 hpush.2
            have hrew := rewireAux_pres hsort.1 hsort.2
            have hLlen : (rewireNL (NodeList.sortNL (children1.pushNL ks s))).length =
                children1.length + 1 := by
              rw [rewireNL, hrew.2.2, NodeList.length_sortNL, NodeList.length_pushNL]
            have hLne : rewireNL (NodeList.sortNL (children1.pushNL ks s)) ≠ .nil :=
              NodeList.ne_nil_of_length_pos (by omega)
            have hfin := internalFinish_pres cap fr1 hLne hrew.1 hrew.2.1
            refine ⟨hfin.1, ?_, ?_⟩
            · rw [hfin.2.1, hn_height]
            · intro s2 hs2
              have hss := hfin.2.2 s2 hs2
              exact ⟨hss.1, by rw [hss.2, hn_height]⟩

theorem insertAt_pres : ∀ (l : NodeList) (i k d fr h : Nat) (res : NodeList × Nat × Option Node),
    l.wfAllNL = true → l.allHeightNL h = true →
    NodeList.insertAt l i k d fr = some res →
    res.1.wfAllNL = true ∧ res.1.allHeightNL h = true ∧
      ∀ s, res.2.2 = some s → s.wf = true ∧ s.height = h
  | .nil, i, k, d, fr, h, res, _, _, heq => by
    simp [NodeList.insertAt] at heq
  | .cons key c t, 0, k, d, fr, h, res, hl, hh, heq => by
    simp only [NodeList.wfAllNL, Bool.and_eq_true] at hl
    simp only [NodeList.allHeightNL, Bool.and_eq_true, decide_eq_true_eq] at hh
    simp only [NodeList.insertAt] at heq
    split at heq
    · exact absurd heq (by simp)
    · rename_i c1 fr1 sib hc
      have hrec := insertF_pres c k d fr (c1, fr1, sib) hl.1 hc
      simp only [Option.some.injEq] at heq
      rw [← heq]
      refine ⟨?_, ?_, ?_⟩
      · simp only [NodeList.wfAllNL, Bool.and_eq_true]
        exact ⟨hrec.1, hl.2⟩
      · simp only [NodeList.allHeightNL, Bool.and_eq_true, decide_eq_true_eq]
        exact ⟨by rw [hrec.2.1, hh.1], hh.2⟩
      · intro s hs
        have hss := hrec.2.2 s hs
        exact ⟨hss.1, by rw [hss.2, hh.1]⟩
  | .cons key c t, i + 1, k, d, fr, h, res, hl, hh, heq => by
    simp only [NodeList.wfAllNL, Bool.and_eq_true] at hl
    simp only [NodeList.allHeightNL, Bool.and_eq_true, decide_eq_true_eq] at hh
    simp only [NodeList.insertAt] at heq
    split at heq
    · exact absurd heq (by simp)
    · rename_i t1 fr1 sib ht
      have hrec := insertAt_pres t i k d fr h (t1, fr1, sib) hl.2 hh.2 ht
      simp only [Option.some.injEq] at heq
      rw [← heq]
      refine ⟨?_, ?_, ?_⟩
      · simp only [NodeList.wfAllNL, Bool.and_eq_true]
        exact ⟨hl.1, hrec.1⟩
      · simp only [NodeList.allHeightNL, Bool.and_eq_true, decide_eq_true_eq]
        exact ⟨hh.1, hrec.2.1⟩
      · exact fun s hs => hrec.2.2 s hs

end

end BPlus

namespace BPlus

theorem setLeafNext_height (n : Node) (p : Option Nat) :
    (n.setLeafNext p).height = n.height := by
  cases n <;> rfl

theorem fixRootChain_two (cap k0 k1 : Nat) (c0 c1 : Node) :
    NodeList.length (fixRootChain (.cons k0 c0 (.cons k1 c1 .nil))) = 2 ∧
    NodeList.keys (fixRootChain (.cons k0 c0 (.cons k1 c1 .nil))) = [k0, k1] ∧
    (Node.internal cap (fixRootChain (.cons k0 c0 (.cons k1 c1 .nil)))).height =
      1 + max c0.height c1.height := by
  cases c1 <;> cases c0 <;>
    simp [fixRootChain, Node.setLeafNext, NodeList.length, NodeList.keys,
      Node.height, NodeList.maxHeight, Nat.max_zero]

/-- C1 (refuting evaluation): the round-trip property fails on `unsafebplus`.
With capacity 1 and the pairwise-distinct insertions (5,50), (3,30), (1,10),
(0,100), no insertion panics, yet `search(0)` afterwards returns not-found
instead of the value 100 that was inserted with key 0. -/
theorem c1_roundtrip_violation :
    tree5310.map (fun t => t.search 0) = some none ∧
      ([5, 3, 1, 0] : List Nat).Nodup := by
  decide

/-- C2 (refuting evaluation): range-scan correctness fails on the same
capacity-1 tree built from (5,50), (3,30), (1,10), (0,100): for
min 0 ≤ max 5 the scan returns [10, 100] (the values of keys 1 then 0),
which misses keys 3 and 5 and is not in ascending key order; the correct
answer would be [100, 10, 30, 50]. -/
theorem c2_range_violation :
    tree5310.map (fun t => t.searchRange 0 5) = some [10, 100] ∧
      ([10, 100] : List Nat) ≠ [100, 10, 30, 50] := by
  decide

/-- C3 (refuting evaluation): the separator-key invariant fails after the
capacity-1 insertions 5, 3, 1: the insertion of key 1 routes through the
first-entry fallback and leaves an internal pair whose separator key 3
differs from its child's minimum key 1, so the tree-wide separator check is
false. -/
theorem c3_separator_violation :
    tree531.map BPlusTree.sepInvariant = some false := by
  decide

/-- C4 (amended): within `unsafebplus`, insertion routing (`find_mut_node`)
and the search/range-scan routing (`find_node`) select the same entry of any
internal node whose keys are sorted; the claim fails only because the
`bplus` variant's insertion descent uses a strict comparison (see the
counterexample). -/
theorem c4_routing_agree (keys : List Nat) (k : Nat) (hs : keys.Pairwise (· ≤ ·)) :
    findMutNodeIdx keys k = findNodeIdx keys k :=
  findIdx_agree_aux keys k hs

theorem c4_routing_agree_witness :
    ([3, 5] : List Nat).Pairwise (· ≤ ·) ∧ findMutNodeIdx [3, 5] 4 = findNodeIdx [3, 5] 4 :=
  ⟨by decide, c4_routing_agree [3, 5] 4 (by decide)⟩

/-- C4 (counterexample): on a node with separator keys [3, 5] and probe
key 5, the `bplus` insertion descent (strict `<`) selects the entry at
index 0 while the search and range-scan routing (`<=`) selects index 1, so
the three paths do not all agree as the claim states. -/
theorem c4_counterexample :
    bplusFindIdx [3, 5] 5 = some 0 ∧ findNodeIdx [3, 5] 5 = some 1 ∧
      bplusFindIdx [3, 5] 5 ≠ findNodeIdx [3, 5] 5 := by
  decide

/-- C5 (refuting evaluation): `unsafebplus` `LeafNode::split` on the leaf
with identity 7, entries [(1,10), (2,20)] and forward reference 99, creating
the sibling with identity 8: the new sibling does inherit the old forward
reference 99, but the old leaf's forward reference is left at 99 — it does
not point to the new sibling 8 immediately after the split, contrary to the
claim (and to the comment inside the Rust function). -/
theorem c5_split_no_handover :
    leafSplit 1 7 [(1, 10), (2, 20)] (some 99) 8 =
      (Node.leaf 1 7 [(1, 10)] (some 99), Node.leaf 1 8 [(2, 20)] (some 99)) ∧
    (leafSplit 1 7 [(1, 10), (2, 20)] (some 99) 8).1.nextRef ≠ some 8 :=
  ⟨rfl, by decide⟩

/-- C6 (refuting evaluation): leaf-chain completeness fails: after the
capacity-1 insertions (5,50), (3,30), (1,10), (0,100) the tree has 4 leaves
but only 2 of them are reachable by following forward references from the
leftmost leaf — the rewiring loop of `InternalNode::insert` nulls the last
leaf of one internal parent and orphans the leaves under its right
sibling. -/
theorem c6_chain_orphans :
    tree5310.map (fun t => (t.chainLeafIds.length, t.leafCount)) = some (2, 4) ∧
      (2 : Nat) ≠ 4 := by
  decide

/-- C7 (refuting evaluation): the sorted leaf-chain invariant fails: on the
same capacity-1 tree the chain traversal from the leftmost leaf yields the
keys [1, 0], which is not non-decreasing. -/
theorem c7_chain_unsorted :
    tree5310.map BPlusTree.chainKeys = some [1, 0] ∧
      ¬ ([1, 0] : List Nat).Pairwise (· ≤ ·) := by
  decide

/-- C8: root growth on `unsafebplus`. If the tree holds a well-formed
(balanced, no empty node) root `n` and inserting (k, d) makes `n` report a
split sibling `s`, then `BPlusTree::insert` replaces the root by a new
internal node holding exactly two entries — the updated old child keyed by
its `min_key` and the sibling keyed by its `min_key` — whose height is
exactly one more than the old root's, and which is not full (the root never
overflows) whenever the capacity is at least 1. -/
theorem c8_root_growth (t : BPlusTree) (n n1 s : Node) (fr1 k0 k1 k d : Nat)
    (hnode : t.node = some n) (hwf : n.wf = true)
    (hins : n.insertF k d t.fresh = some (n1, fr1, some s))
    (hk0 : n1.minKey = some k0) (hk1 : s.minKey = some k1) :
    t.insert k d =
      some ⟨t.cap, some (.internal t.cap (fixRootChain (.cons k0 n1 (.cons k1 s .nil)))), fr1⟩ ∧
    NodeList.length (fixRootChain (.cons k0 n1 (.cons k1 s .nil))) = 2 ∧
    NodeList.keys (fixRootChain (.cons k0 n1 (.cons k1 s .nil))) = [k0, k1] ∧
    (Node.internal t.cap (fixRootChain (.cons k0 n1 (.cons k1 s .nil)))).height = n.height + 1 ∧
    (1 ≤ t.cap →
      (Node.internal t.cap (fixRootChain (.cons k0 n1 (.cons k1 s .nil)))).isFullInternal = false) := by
  have hpres := insertF_pres n k d t.fresh (n1, fr1, some s) hwf hins
  have hh1 : n1.height = n.height := hpres.2.1
  have hhs : s.height = n.height := (hpres.2.2 s rfl).2
  have hfix := fixRootChain_two t.cap k0 k1 n1 s
  refine ⟨?_, hfix.1, hfix.2.1, ?_, ?_⟩
  · simp only [BPlusTree.insert, hnode, hins, hk0, hk1]
  · rw [hfix.2.2, hh1, hhs, Nat.max_self, Nat.add_comm]
  · intro hcap
    simp only [Node.isFullInternal, hfix.1, decide_eq_false_iff_not]
    omega

theorem c8_root_growth_witness :
    (Node.leaf 1 0 [(5, 50)] none).wf = true ∧
    BPlusTree.insert ⟨1, some (Node.leaf 1 0 [(5, 50)] none), 1⟩ 3 30 =
      some ⟨1, some (Node.internal 1 (fixRootChain (.cons 3 (Node.leaf 1 0 [(3, 30)] none)
        (.cons 5 (Node.leaf 1 1 [(5, 50)] none) .nil)))), 2⟩ ∧
    NodeList.length (fixRootChain (.cons 3 (Node.leaf 1 0 [(3, 30)] none)
      (.cons 5 (Node.leaf 1 1 [(5, 50)] none) .nil))) = 2 ∧
    NodeList.keys (fixRootChain (.cons 3 (Node.leaf 1 0 [(3, 30)] none)
      (.cons 5 (Node.leaf 1 1 [(5, 50)] none) .nil))) = [3, 5] ∧
    (Node.internal 1 (fixRootChain (.cons 3 (Node.leaf 1 0 [(3, 30)] none)
      (.cons 5 (Node.leaf 1 1 [(5, 50)] none) .nil)))).height =
        (Node.leaf 1 0 [(5, 50)] none).height + 1 ∧
    (1 ≤ 1 → (Node.internal 1 (fixRootChain (.cons 3 (Node.leaf 1 0 [(3, 30)] none)
      (.cons 5 (Node.leaf 1 1 [(5, 50)] none) .nil)))).isFullInternal = false) :=
  have h := c8_root_growth ⟨1, some (Node.leaf 1 0 [(5, 50)] none), 1⟩
    (Node.leaf 1 0 [(5, 50)] none) (Node.leaf 1 0 [(3, 30)] none)
    (Node.leaf 1 1 [(5, 50)] none) 2 3 5 3 30 rfl (by decide) rfl rfl rfl
  ⟨by decide, h.1, h.2.1, h.2.2.1, h.2.2.2.1, h.2.2.2.2⟩

/-- C9 (amended): an internal node with zero children is not treated as
fatal by any operation: insertion silently recovers by fabricating a fresh
leaf child that holds the inserted entry (reporting no split and no panic),
point search silently returns not-found, and range scan silently returns the
empty sequence. -/
theorem c9_silent_recovery (cap k d fr mn mx : Nat) :
    Node.insertF (.internal cap .nil) k d fr =
      some (.internal cap (.cons k (.leaf cap fr [(k, d)] none) .nil), fr + 1, none) ∧
    Node.searchF (.internal cap .nil) k = none ∧
    Node.searchRangeF (.internal cap .nil) (.internal cap .nil) mn mx = [] := by
  refine ⟨rfl, rfl, ?_⟩
  by_cases hmn : mn > mx
  · simp [Node.searchRangeF, hmn]
  · simp [Node.searchRangeF, hmn, findNodeIdx, NodeList.keys]

/-- C9 (counterexample): at the concrete input — capacity 1, inserting
(7, 42) into an internal node with zero children — the code does not fail;
it fabricates a fresh leaf child containing the entry and continues,
contradicting the claim that this state is an unrecoverable assertion
failure. -/
theorem c9_counterexample :
    Node.insertF (.internal 1 .nil) 7 42 0 =
      some (.internal 1 (.cons 7 (.leaf 1 0 [(7, 42)] none) .nil), 1, none) := rfl

/-- C10: duplicate keys are retained by the leaf insertion of both crates.
Inserting (k, v2) into a sorted entry list places the new entry exactly
after every entry with key at most k and before the rest (so nothing is
overwritten), the result is a permutation of the old entries plus the new
one, and every previously present entry (k, v1) lies in the kept prefix,
i.e. before the newly inserted equal-key entry. -/
theorem c10_duplicates_kept (l : List (Nat × Nat)) (k v2 : Nat)
    (hs : l.Pairwise (fun a b => a.1 ≤ b.1)) :
    leafInsertData l k v2 =
        l.takeWhile (fun p => decide (p.1 ≤ k)) ++ (k, v2) ::
          l.dropWhile (fun p => decide (p.1 ≤ k)) ∧
    (leafInsertData l k v2).Perm ((k, v2) :: l) ∧
    ∀ v1, (k, v1) ∈ l → (k, v1) ∈ l.takeWhile (fun p => decide (p.1 ≤ k)) := by
  refine ⟨?_, ?_, ?_⟩
  · exact sortPairs_append_single l (k, v2) hs
  · exact (sortPairs_perm (l ++ [(k, v2)])).trans (List.perm_append_singleton _ _)
  · intro v1 hm
    exact mem_takeWhile_of_sorted hs hm

theorem c10_duplicates_kept_witness :
    ([(2, 9), (3, 7), (5, 8)] : List (Nat × Nat)).Pairwise (fun a b => a.1 ≤ b.1) ∧
    leafInsertData [(2, 9), (3, 7), (5, 8)] 3 4 =
        List.takeWhile (fun p => decide (p.1 ≤ 3)) [(2, 9), (3, 7), (5, 8)] ++ (3, 4) ::
          List.dropWhile (fun p => decide (p.1 ≤ 3)) [(2, 9), (3, 7), (5, 8)] ∧
    (3, 7) ∈ List.takeWhile (fun p => decide (p.1 ≤ 3)) [(2, 9), (3, 7), (5, 8)] :=
  have h := c10_duplicates_kept [(2, 9), (3, 7), (5, 8)] 3 4 (by decide)
  ⟨by decide, h.1, h.2.2 7 (by decide)⟩

end BPlus
